import Mathlib

/-!
# Verification of `agnostic-levenshtein` (`src/lib.rs`)

The library exposes a single public function
`edit_distance(a: &str, b: &str, ascii: bool) -> u32` computing the
Levenshtein distance between two strings, either over their UTF-8 bytes
(`ascii = true`) or over their Unicode scalar values (`ascii = false`).
Internally it dispatches to `min_distance`, a two-row rolling
dynamic-programming loop.

This file contains a shallow embedding of that code and proofs of the
specification claims.  Machine integers (`u32`) are modelled as `Nat`:
every intermediate value in the source is bounded by `max m n + 1` where
`m`, `n` are the prepared sequence lengths, so the model coincides with
the `u32` code for all inputs whose prepared length is below `2^32`
(the truncating casts never fire there).
-/

namespace AgnosticLev

/-! ## Embedding of the source

UTF-8 encoding of a `Char`, as Rust's `str` stores it: this models the
byte sequence underlying `&str`, so that `a.as_bytes()` and `a.len()`
can be expressed.  Bytes are modelled as `Nat` (all values are < 256). -/

def utf8EncodeChar (c : Char) : List Nat :=
  let n := c.toNat
  if n < 0x80 then [n]
  else if n < 0x800 then [0xC0 + n / 64, 0x80 + n % 64]
  else if n < 0x10000 then [0xE0 + n / 4096, 0x80 + n / 64 % 64, 0x80 + n % 64]
  else [0xF0 + n / 262144, 0x80 + n / 4096 % 64, 0x80 + n / 64 % 64, 0x80 + n % 64]

/-- The UTF-8 byte sequence of a list of characters. -/
def utf8Encode : List Char → List Nat
  | [] => []
  | c :: cs => utf8EncodeChar c ++ utf8Encode cs

/-- Model of Rust's `a.as_bytes()`: the UTF-8 bytes of the string. -/
def strBytes (s : String) : List Nat :=
  utf8Encode s.data

/-- Model of Rust's `a.len()`: the UTF-8 byte length of the string. -/
def byteLength (s : String) : Nat :=
  (strBytes s).length

/-- Model of Rust's `a.chars().count()`: the number of Unicode scalar values. -/
def charLength (s : String) : Nat :=
  s.data.length

/-- Model of the inner `for j in 1..=m` loop of `min_distance`
(src/lib.rs lines 63–74).  `bc` is the current element of `b`; the list
argument is the still-unprocessed suffix of `a` (element `a[j-1]` first);
`prevRest` is `dp_prev` from index `j` on; `diag` is `dp_prev[j-1]`; and
`left` is `dp_curr[j-1]`.  It returns the entries `dp_curr[j..=m]`.
Every cell `dp_curr[0..=m]` is overwritten on every outer iteration
(index 0 by line 61, indices `1..=m` by lines 65/73), so rebuilding the
row functionally is exact; `innerChecked` below re-runs the same loop
against the mutable vectors and confirms this. -/
def lev_row {α : Type} [DecidableEq α] (bc : α) :
    List α → List Nat → Nat → Nat → List Nat
  | [], _, _, _ => []
  | x :: xs, prevRest, diag, left =>
    let up := prevRest.headD 0
    let cur := if x = bc then diag
      else Nat.min (Nat.min (left + 1) (up + 1)) (diag + 1)
    cur :: lev_row bc xs prevRest.tail up cur

/-- Model of the outer `for (i, b_char) in b.iter().enumerate()` loop of
`min_distance` (src/lib.rs lines 59–78).  The final `swap` is modelled by
passing the freshly built row as `prev` of the next iteration; the
returned list is `dp_prev` after the loop. -/
def outer_rows {α : Type} [DecidableEq α] (a : List α) :
    List α → Nat → List Nat → List Nat
  | [], _, prev => prev
  | bc :: bs, i, prev =>
    outer_rows a bs (i + 1) ((i + 1) :: lev_row bc a prev.tail (prev.headD 0) (i + 1))

/-- Model of `min_distance` (src/lib.rs lines 50–81): `dp_prev` starts as
`(0..=m).collect()` and the result is `dp_prev[m]`. -/
def min_distance {α : Type} [DecidableEq α] (a b : List α) : Nat :=
  (outer_rows a b 0 (List.range (a.length + 1))).getD a.length 0

/-- Model of the public `edit_distance` (src/lib.rs lines 21–48).
`a == b` and `is_empty` are string equality and emptiness;
`as_bytes`/`len` are `strBytes`/`byteLength`; `chars().collect()` is
`String.data`. -/
def edit_distance (a b : String) (ascii : Bool) : Nat :=
  if a = b then 0
  else if a = "" then (if ascii then byteLength b else charLength b)
  else if b = "" then (if ascii then byteLength a else charLength a)
  else if ascii then min_distance (strBytes a) (strBytes b)
  else min_distance a.data b.data

/-! ## Mathematical reference: the Levenshtein distance

`lev` is the textbook recurrence; `EditStep`/`Edits` capture single-element
edits and edit scripts of a given length, so that `lev` can be proved to
be the *minimum number* of insertions, deletions and substitutions. -/

/-- The Levenshtein distance, by the standard recurrence. -/
def lev {α : Type} [DecidableEq α] : List α → List α → Nat
  | [], ys => ys.length
  | _ :: xs, [] => xs.length + 1
  | x :: xs, y :: ys =>
    if x = y then lev xs ys
    else Nat.min (Nat.min (lev xs (y :: ys) + 1) (lev (x :: xs) ys + 1)) (lev xs ys + 1)
  termination_by xs ys => xs.length + ys.length
  decreasing_by all_goals (simp [List.length_cons]; try omega)

/-- A single edit: insertion, deletion or substitution of one element. -/
inductive EditStep {α : Type} : List α → List α → Prop
  | insert (pre suf : List α) (x : α) : EditStep (pre ++ suf) (pre ++ x :: suf)
  | delete (pre suf : List α) (x : α) : EditStep (pre ++ x :: suf) (pre ++ suf)
  | subst (pre suf : List α) (x y : α) : EditStep (pre ++ x :: suf) (pre ++ y :: suf)

/-- `Edits n xs ys`: `xs` can be transformed into `ys` by `n` single edits. -/
inductive Edits {α : Type} : Nat → List α → List α → Prop
  | refl (xs : List α) : Edits 0 xs xs
  | step {n : Nat} {xs ys zs : List α} :
      EditStep xs ys → Edits n ys zs → Edits (n + 1) xs zs

/-- The full `(m+1) × (n+1)` dynamic-programming matrix described by the
spec (§3, §4.2): base row/column `[0][j] = j`, `[i][0] = i`, and for
`i, j ≥ 1` copy the diagonal on an element match, otherwise
`1 + min` of the three predecessor cells. -/
def dpMat {α : Type} [DecidableEq α] (a b : List α) : Nat → Nat → Nat
  | 0, j => j
  | i + 1, 0 => i + 1
  | i + 1, j + 1 =>
    if a[i]? = b[j]? then dpMat a b i j
    else 1 + Nat.min (dpMat a b (i + 1) j) (Nat.min (dpMat a b i (j + 1)) (dpMat a b i j))
  termination_by i j => i + j
  decreasing_by all_goals omega

/-! ## Basic lemmas about `lev` -/

theorem lev_nil_left {α : Type} [DecidableEq α] (ys : List α) :
    lev [] ys = ys.length := by
  simp [lev]

theorem lev_nil_right {α : Type} [DecidableEq α] (xs : List α) :
    lev xs [] = xs.length := by
  cases xs <;> simp [lev]

theorem lev_cons_cons {α : Type} [DecidableEq α] (x y : α) (xs ys : List α) :
    lev (x :: xs) (y :: ys) =
      if x = y then lev xs ys
      else Nat.min (Nat.min (lev xs (y :: ys) + 1) (lev (x :: xs) ys + 1))
        (lev xs ys + 1) := by
  simp [lev]

/-- Facts about the three-way minimum of the recurrence, packaged so that
`omega` (which treats `Nat.min` as an opaque atom) can use them. -/
theorem min3_spec (a b c : Nat) :
    (Nat.min (Nat.min a b) c = a ∨ Nat.min (Nat.min a b) c = b ∨
      Nat.min (Nat.min a b) c = c) ∧
    Nat.min (Nat.min a b) c ≤ a ∧ Nat.min (Nat.min a b) c ≤ b ∧
    Nat.min (Nat.min a b) c ≤ c := by
  simp only [Nat.min_def]
  split <;> split <;> omega

theorem lev_self {α : Type} [DecidableEq α] (xs : List α) : lev xs xs = 0 := by
  induction xs with
  | nil => simp [lev]
  | cons x xs ih => rw [lev_cons_cons, if_pos rfl, ih]

/-- The four Lipschitz facts: adding or removing one element in front of
either argument changes the distance by at most one. -/
theorem lev_lipschitz {α : Type} [DecidableEq α] :
    ∀ N : Nat, ∀ xs ys : List α, xs.length + ys.length < N →
      (∀ x, lev xs ys ≤ 1 + lev (x :: xs) ys) ∧
      (∀ x, lev (x :: xs) ys ≤ 1 + lev xs ys) ∧
      (∀ y, lev xs ys ≤ 1 + lev xs (y :: ys)) ∧
      (∀ y, lev xs (y :: ys) ≤ 1 + lev xs ys) := by
  intro N
  induction N with
  | zero => intro xs ys h; omega
  | succ N ih =>
    intro xs ys h
    refine ⟨?_, ?_, ?_, ?_⟩
    · -- lev xs ys ≤ 1 + lev (x :: xs) ys
      intro x
      cases ys with
      | nil => simp [lev_nil_right]; omega
      | cons y t =>
        rcases eq_or_ne x y with hxy | hxy
        · subst hxy
          rw [lev_cons_cons, if_pos rfl]
          exact (ih xs t (by simp at h ⊢; omega)).2.2.2 x
        · rw [lev_cons_cons, if_neg hxy]
          have h1 := (ih xs t (by simp at h ⊢; omega)).2.2.2 y
          have h2 := (ih xs t (by simp at h ⊢; omega)).1 x
          have hm := min3_spec (lev xs (y :: t) + 1) (lev (x :: xs) t + 1) (lev xs t + 1)
          omega
    · -- lev (x :: xs) ys ≤ 1 + lev xs ys
      intro x
      cases ys with
      | nil => simp [lev_nil_right]; omega
      | cons y t =>
        rcases eq_or_ne x y with hxy | hxy
        · subst hxy
          rw [lev_cons_cons, if_pos rfl]
          exact (ih xs t (by simp at h ⊢; omega)).2.2.1 x
        · rw [lev_cons_cons, if_neg hxy]
          have hm := min3_spec (lev xs (y :: t) + 1) (lev (x :: xs) t + 1) (lev xs t + 1)
          omega
    · -- lev xs ys ≤ 1 + lev xs (y :: ys)
      intro y
      cases xs with
      | nil => simp [lev_nil_left]; omega
      | cons x s =>
        rcases eq_or_ne x y with hxy | hxy
        · subst hxy
          rw [lev_cons_cons, if_pos rfl]
          exact (ih s ys (by simp at h ⊢; omega)).2.1 x
        · rw [lev_cons_cons, if_neg hxy]
          have h1 := (ih s ys (by simp at h ⊢; omega)).2.1 x
          have h2 := (ih s ys (by simp at h ⊢; omega)).2.2.1 y
          have hm := min3_spec (lev s (y :: ys) + 1) (lev (x :: s) ys + 1) (lev s ys + 1)
          omega
    · -- lev xs (y :: ys) ≤ 1 + lev xs ys
      intro y
      cases xs with
      | nil => simp [lev_nil_left]; omega
      | cons x s =>
        rcases eq_or_ne x y with hxy | hxy
        · subst hxy
          rw [lev_cons_cons, if_pos rfl]
          exact (ih s ys (by simp at h ⊢; omega)).1 x
        · rw [lev_cons_cons, if_neg hxy]
          have hm := min3_spec (lev s (y :: ys) + 1) (lev (x :: s) ys + 1) (lev s ys + 1)
          omega

theorem lev_le_cons_left {α : Type} [DecidableEq α] (xs ys : List α) (x : α) :
    lev xs ys ≤ 1 + lev (x :: xs) ys :=
  (lev_lipschitz (xs.length + ys.length + 1) xs ys (by omega)).1 x

theorem lev_cons_le_left {α : Type} [DecidableEq α] (xs ys : List α) (x : α) :
    lev (x :: xs) ys ≤ 1 + lev xs ys :=
  (lev_lipschitz (xs.length + ys.length + 1) xs ys (by omega)).2.1 x

theorem lev_le_cons_right {α : Type} [DecidableEq α] (xs ys : List α) (y : α) :
    lev xs ys ≤ 1 + lev xs (y :: ys) :=
  (lev_lipschitz (xs.length + ys.length + 1) xs ys (by omega)).2.2.1 y

theorem lev_cons_le_right {α : Type} [DecidableEq α] (xs ys : List α) (y : α) :
    lev xs (y :: ys) ≤ 1 + lev xs ys :=
  (lev_lipschitz (xs.length + ys.length + 1) xs ys (by omega)).2.2.2 y

/-- The distance is bounded by the length of the longer sequence. -/
theorem lev_le_max {α : Type} [DecidableEq α] :
    ∀ xs ys : List α, lev xs ys ≤ max xs.length ys.length := by
  intro xs ys
  induction xs, ys using lev.induct with
  | case1 ys => simp [lev_nil_left]
  | case2 x xs => simp [lev_nil_right]
  | case3 xs y ys ih =>
    rw [lev_cons_cons, if_pos rfl]
    simp only [List.length_cons]
    omega
  | case4 x xs y ys hxy ih1 ih2 ih3 =>
    rw [lev_cons_cons, if_neg hxy]
    have hm := min3_spec (lev xs (y :: ys) + 1) (lev (x :: xs) ys + 1) (lev xs ys + 1)
    simp only [List.length_cons] at *
    omega

/-- A deletion can shrink the length by at most one per edit:
`xs` cannot be longer than `ys` by more than the distance. -/
theorem length_le_length_add_lev {α : Type} [DecidableEq α] :
    ∀ xs ys : List α, xs.length ≤ ys.length + lev xs ys := by
  intro xs ys
  induction xs, ys using lev.induct with
  | case1 ys => simp [lev_nil_left]
  | case2 x xs => simp [lev_nil_right]
  | case3 xs y ys ih =>
    rw [lev_cons_cons, if_pos rfl]
    simp only [List.length_cons] at *
    omega
  | case4 x xs y ys hxy ih1 ih2 ih3 =>
    rw [lev_cons_cons, if_neg hxy]
    have hm := min3_spec (lev xs (y :: ys) + 1) (lev (x :: xs) ys + 1) (lev xs ys + 1)
    simp only [List.length_cons] at *
    omega

theorem length_le_length_add_lev' {α : Type} [DecidableEq α] :
    ∀ xs ys : List α, ys.length ≤ xs.length + lev xs ys := by
  intro xs ys
  induction xs, ys using lev.induct with
  | case1 ys => simp [lev_nil_left]
  | case2 x xs => simp [lev_nil_right]
  | case3 xs y ys ih =>
    rw [lev_cons_cons, if_pos rfl]
    simp only [List.length_cons] at *
    omega
  | case4 x xs y ys hxy ih1 ih2 ih3 =>
    rw [lev_cons_cons, if_neg hxy]
    have hm := min3_spec (lev xs (y :: ys) + 1) (lev (x :: xs) ys + 1) (lev xs ys + 1)
    simp only [List.length_cons] at *
    omega

/-- Dropping the head of both lists costs at most one edit. -/
theorem lev_cons_cons_le {α : Type} [DecidableEq α] (x z : α) (s u : List α) :
    lev (x :: s) (z :: u) ≤ 1 + lev s u := by
  rcases eq_or_ne x z with hxz | hxz
  · rw [lev_cons_cons, if_pos hxz]; omega
  · rw [lev_cons_cons, if_neg hxz]
    have hm := min3_spec (lev s (z :: u) + 1) (lev (x :: s) u + 1) (lev s u + 1)
    omega

theorem lev_triangle_aux {α : Type} [DecidableEq α] :
    ∀ N : Nat, ∀ xs ys zs : List α,
      xs.length + ys.length + zs.length < N →
      lev xs zs ≤ lev xs ys + lev ys zs := by
  intro N
  induction N with
  | zero => intro xs ys zs h; omega
  | succ N ih =>
    intro xs ys zs h
    cases ys with
    | nil =>
      have h1 := lev_le_max xs zs
      simp only [lev_nil_left, lev_nil_right]
      rcases Nat.le_total xs.length zs.length with hl | hl
      · rw [Nat.max_eq_right hl] at h1; omega
      · rw [Nat.max_eq_left hl] at h1; omega
    | cons y t =>
      cases xs with
      | nil =>
        have h1 := length_le_length_add_lev' (y :: t) zs
        simp only [lev_nil_left]
        omega
      | cons x s =>
        cases zs with
        | nil =>
          have h1 := length_le_length_add_lev (x :: s) (y :: t)
          simp only [lev_nil_right]
          omega
        | cons z u =>
          rcases eq_or_ne x y with hxy | hxy
          · subst hxy
            rcases eq_or_ne x z with hxz | hxz
            · subst hxz
              rw [lev_cons_cons x x s u, if_pos rfl, lev_cons_cons x x s t, if_pos rfl,
                lev_cons_cons x x t u, if_pos rfl]
              exact ih s t u (by simp at h ⊢; omega)
            · rw [lev_cons_cons x z s u, if_neg hxz, lev_cons_cons x x s t, if_pos rfl,
                lev_cons_cons x z t u, if_neg hxz]
              have I1 := ih s t (z :: u) (by simp at h ⊢; omega)
              have I2 := ih (x :: s) (x :: t) u (by simp at h ⊢; omega)
              rw [lev_cons_cons x x s t, if_pos rfl] at I2
              have I3 := ih s t u (by simp at h ⊢; omega)
              have hm1 := min3_spec (lev s (z :: u) + 1) (lev (x :: s) u + 1) (lev s u + 1)
              have hm2 := min3_spec (lev t (z :: u) + 1) (lev (x :: t) u + 1) (lev t u + 1)
              omega
          · rcases eq_or_ne y z with hyz | hyz
            · subst hyz
              rw [lev_cons_cons x y s u, if_neg hxy, lev_cons_cons x y s t, if_neg hxy,
                lev_cons_cons y y t u, if_pos rfl]
              have I1 := ih s (y :: t) (y :: u) (by simp at h ⊢; omega)
              rw [lev_cons_cons y y t u, if_pos rfl] at I1
              have I2 := ih (x :: s) t (y :: u) (by simp at h ⊢; omega)
              rw [lev_cons_cons x y s u, if_neg hxy] at I2
              have I3 := ih s t u (by simp at h ⊢; omega)
              have hD := lev_cons_le_right t u y
              have hm1 := min3_spec (lev s (y :: u) + 1) (lev (x :: s) u + 1) (lev s u + 1)
              have hm2 := min3_spec (lev s (y :: t) + 1) (lev (x :: s) t + 1) (lev s t + 1)
              omega
            · rw [lev_cons_cons x y s t, if_neg hxy, lev_cons_cons y z t u, if_neg hyz]
              have U1 := lev_cons_le_left s (z :: u) x
              have U2 := lev_cons_le_right (x :: s) u z
              have U3 := lev_cons_cons_le x z s u
              have I1 := ih s (y :: t) (z :: u) (by simp at h ⊢; omega)
              rw [lev_cons_cons y z t u, if_neg hyz] at I1
              have I2 := ih (x :: s) t (z :: u) (by simp at h ⊢; omega)
              have I3 := ih s t u (by simp at h ⊢; omega)
              have I4 := ih (x :: s) (y :: t) u (by simp at h ⊢; omega)
              rw [lev_cons_cons x y s t, if_neg hxy] at I4
              have I5 := ih s t (z :: u) (by simp at h ⊢; omega)
              have hA := lev_le_cons_left s t x
              have hmD := min3_spec (lev s (y :: t) + 1) (lev (x :: s) t + 1) (lev s t + 1)
              have hmE := min3_spec (lev t (z :: u) + 1) (lev (y :: t) u + 1) (lev t u + 1)
              omega

/-- The triangle inequality for the Levenshtein distance. -/
theorem lev_triangle {α : Type} [DecidableEq α] (xs ys zs : List α) :
    lev xs zs ≤ lev xs ys + lev ys zs :=
  lev_triangle_aux (xs.length + ys.length + zs.length + 1) xs ys zs (by omega)

/-! ## Edit scripts: `lev` is the minimal number of edits -/

theorem editStep_cons_lift {α : Type} {xs ys : List α} (c : α) (h : EditStep xs ys) :
    EditStep (c :: xs) (c :: ys) := by
  cases h with
  | insert pre suf x => exact EditStep.insert (c :: pre) suf x
  | delete pre suf x => exact EditStep.delete (c :: pre) suf x
  | subst pre suf x y => exact EditStep.subst (c :: pre) suf x y

theorem edits_cons_lift {α : Type} {n : Nat} {xs ys : List α} (c : α)
    (h : Edits n xs ys) : Edits n (c :: xs) (c :: ys) := by
  induction h with
  | refl xs => exact Edits.refl _
  | step s e ih => exact Edits.step (editStep_cons_lift c s) ih

theorem edits_snoc {α : Type} :
    ∀ {n : Nat} {xs ys : List α}, Edits n xs ys →
      ∀ {zs : List α}, EditStep ys zs → Edits (n + 1) xs zs := by
  intro n xs ys h
  induction h with
  | refl xs => intro zs s; exact Edits.step s (Edits.refl _)
  | step s0 e ih => intro zs s; exact Edits.step s0 (ih s)

theorem edits_insert_all {α : Type} (ys : List α) : Edits ys.length [] ys := by
  induction ys with
  | nil => exact Edits.refl []
  | cons y t ih => exact Edits.step (EditStep.insert [] [] y) (edits_cons_lift y ih)

theorem edits_delete_all {α : Type} (xs : List α) : Edits xs.length xs [] := by
  induction xs with
  | nil => exact Edits.refl []
  | cons x t ih => exact Edits.step (EditStep.delete [] t x) ih

/-- There always is an edit script of length `lev xs ys`. -/
theorem edits_lev {α : Type} [DecidableEq α] (xs ys : List α) :
    Edits (lev xs ys) xs ys := by
  induction xs, ys using lev.induct with
  | case1 ys => rw [lev_nil_left]; exact edits_insert_all ys
  | case2 x xs => rw [lev_nil_right]; exact edits_delete_all (x :: xs)
  | case3 xs y ys ih => rw [lev_cons_cons, if_pos rfl]; exact edits_cons_lift y ih
  | case4 x xs y ys hxy ih1 ih2 ih3 =>
    rw [lev_cons_cons, if_neg hxy]
    rcases (min3_spec (lev xs (y :: ys) + 1) (lev (x :: xs) ys + 1)
      (lev xs ys + 1)).1 with hm | hm | hm <;> rw [hm]
    · exact Edits.step (EditStep.delete [] xs x) ih1
    · exact edits_snoc ih2 (EditStep.insert [] ys y)
    · exact Edits.step (EditStep.subst [] xs x y) (edits_cons_lift y ih3)

theorem lev_append_left {α : Type} [DecidableEq α] :
    ∀ p s t : List α, lev (p ++ s) (p ++ t) = lev s t := by
  intro p
  induction p with
  | nil => intro s t; rfl
  | cons c p ih =>
    intro s t
    rw [List.cons_append, List.cons_append, lev_cons_cons, if_pos rfl]
    exact ih s t

/-- A single edit moves the distance by at most one. -/
theorem editStep_lev_le_one {α : Type} [DecidableEq α] {xs ys : List α}
    (h : EditStep xs ys) : lev xs ys ≤ 1 := by
  cases h with
  | insert pre suf x =>
    rw [lev_append_left]
    have h1 := lev_cons_le_right suf suf x
    have h2 := lev_self suf
    omega
  | delete pre suf x =>
    rw [lev_append_left]
    have h1 := lev_cons_le_left suf suf x
    have h2 := lev_self suf
    omega
  | subst pre suf x y =>
    rw [lev_append_left]
    rcases eq_or_ne x y with hxy | hxy
    · rw [lev_cons_cons, if_pos hxy, lev_self]; omega
    · rw [lev_cons_cons, if_neg hxy]
      have hm := min3_spec (lev suf (y :: suf) + 1) (lev (x :: suf) suf + 1)
        (lev suf suf + 1)
      have h2 := lev_self suf
      omega

/-- No edit script is shorter than `lev`. -/
theorem lev_le_of_edits {α : Type} [DecidableEq α] :
    ∀ {n : Nat} {xs ys : List α}, Edits n xs ys → lev xs ys ≤ n := by
  intro n xs ys h
  induction h with
  | refl xs => rw [lev_self]
  | @step k xs ys zs s e ih =>
    have h1 := lev_triangle xs ys zs
    have h2 := editStep_lev_le_one s
    omega

/-- `lev xs ys` is exactly the minimum number of single-element edits
turning `xs` into `ys`. -/
theorem lev_isLeast {α : Type} [DecidableEq α] (xs ys : List α) :
    IsLeast {n | Edits n xs ys} (lev xs ys) :=
  ⟨edits_lev xs ys, fun _ hn => lev_le_of_edits hn⟩

theorem editStep_symm {α : Type} {xs ys : List α} (h : EditStep xs ys) :
    EditStep ys xs := by
  cases h with
  | insert pre suf x => exact EditStep.delete pre suf x
  | delete pre suf x => exact EditStep.insert pre suf x
  | subst pre suf x y => exact EditStep.subst pre suf y x

theorem edits_symm {α : Type} {n : Nat} {xs ys : List α} (h : Edits n xs ys) :
    Edits n ys xs := by
  induction h with
  | refl xs => exact Edits.refl xs
  | step s e ih => exact edits_snoc ih (editStep_symm s)

theorem lev_symm {α : Type} [DecidableEq α] (xs ys : List α) :
    lev xs ys = lev ys xs :=
  le_antisymm (lev_le_of_edits (edits_symm (edits_lev ys xs)))
    (lev_le_of_edits (edits_symm (edits_lev xs ys)))

theorem editStep_rev {α : Type} {xs ys : List α} (h : EditStep xs ys) :
    EditStep xs.reverse ys.reverse := by
  cases h with
  | insert pre suf x =>
    rw [List.reverse_append, List.reverse_append, List.reverse_cons,
      List.append_assoc]
    exact EditStep.insert suf.reverse pre.reverse x
  | delete pre suf x =>
    rw [List.reverse_append, List.reverse_append, List.reverse_cons,
      List.append_assoc]
    exact EditStep.delete suf.reverse pre.reverse x
  | subst pre suf x y =>
    rw [List.reverse_append, List.reverse_append, List.reverse_cons,
      List.reverse_cons, List.append_assoc, List.append_assoc]
    exact EditStep.subst suf.reverse pre.reverse x y

theorem edits_rev {α : Type} {n : Nat} {xs ys : List α} (h : Edits n xs ys) :
    Edits n xs.reverse ys.reverse := by
  induction h with
  | refl xs => exact Edits.refl _
  | step s e ih => exact Edits.step (editStep_rev s) ih

/-- The distance is invariant under reversing both sequences. -/
theorem lev_reverse {α : Type} [DecidableEq α] (xs ys : List α) :
    lev xs.reverse ys.reverse = lev xs ys := by
  apply le_antisymm
  · exact lev_le_of_edits (edits_rev (edits_lev xs ys))
  · have h := lev_le_of_edits (edits_rev (edits_lev xs.reverse ys.reverse))
    simpa using h

/-! ## The rolling rows of `min_distance` compute `lev`

The code's DP row, after consuming a prefix of `b` whose reversal is `w`,
holds at column `j` the distance between the reversed `j`-prefix of `a`
and `w`.  `rowTail w rs as` is the tail of that row: `rs` is the reversed
already-processed prefix of `a` and `as` the remaining elements. -/

def rowTail {α : Type} [DecidableEq α] (w : List α) : List α → List α → List Nat
  | _, [] => []
  | rs, x :: as => lev (x :: rs) w :: rowTail w (x :: rs) as

theorem lev_row_rowTail {α : Type} [DecidableEq α] (bc : α) (w : List α) :
    ∀ as rs : List α,
      lev_row bc as (rowTail w rs as) (lev rs w) (lev rs (bc :: w)) =
        rowTail (bc :: w) rs as := by
  intro as
  induction as with
  | nil => intro rs; rfl
  | cons x as ih =>
    intro rs
    simp only [rowTail, lev_row, List.headD_cons, List.tail_cons]
    rw [← lev_cons_cons x bc rs w]
    rw [ih (x :: rs)]

theorem outer_rows_rowTail {α : Type} [DecidableEq α] (a : List α) :
    ∀ bs w : List α,
      outer_rows a bs w.length (w.length :: rowTail w [] a) =
        (bs.reverse ++ w).length :: rowTail (bs.reverse ++ w) [] a := by
  intro bs
  induction bs with
  | nil => intro w; simp [outer_rows]
  | cons bc bs ih =>
    intro w
    have hrow := lev_row_rowTail bc w a []
    rw [lev_nil_left, lev_nil_left] at hrow
    simp only [List.length_cons] at hrow
    simp only [outer_rows, List.tail_cons, List.headD_cons]
    rw [hrow]
    have hih := ih (bc :: w)
    simp only [List.length_cons] at hih
    rw [hih]
    simp [List.reverse_cons, List.append_assoc]

theorem rowTail_getD {α : Type} [DecidableEq α] (w : List α) :
    ∀ as rs : List α,
      (lev rs w :: rowTail w rs as).getD as.length 0 = lev (as.reverse ++ rs) w := by
  intro as
  induction as with
  | nil => intro rs; simp
  | cons x as ih =>
    intro rs
    simp only [rowTail, List.length_cons, List.getD_cons_succ]
    simpa [List.reverse_cons, List.append_assoc] using ih (x :: rs)

theorem rowTail_nil {α : Type} [DecidableEq α] :
    ∀ as rs : List α, rowTail [] rs as = List.range' (rs.length + 1) as.length := by
  intro as
  induction as with
  | nil => intro rs; rfl
  | cons x as ih =>
    intro rs
    simp only [rowTail, lev_nil_right, List.length_cons, List.range'_succ]
    rw [ih (x :: rs)]
    simp [List.length_cons]

theorem range_succ_rowTail {α : Type} [DecidableEq α] (a : List α) :
    List.range (a.length + 1) = 0 :: rowTail ([] : List α) [] a := by
  rw [rowTail_nil a ([] : List α)]
  rw [List.range_eq_range', List.range'_succ]
  rfl

/-- The rolling two-row loop returns exactly the Levenshtein distance. -/
theorem min_distance_eq_lev {α : Type} [DecidableEq α] (a b : List α) :
    min_distance a b = lev a b := by
  unfold min_distance
  rw [range_succ_rowTail a]
  have h0 := outer_rows_rowTail a b []
  simp only [List.length_nil, List.append_nil] at h0
  rw [h0]
  have h1 := rowTail_getD b.reverse a ([] : List α)
  rw [lev_nil_left] at h1
  simp only [List.append_nil] at h1
  rw [h1, lev_reverse]

/-! ## The full DP matrix agrees with `lev` and with `min_distance` -/

theorem min3_spec' (a b c : Nat) :
    (Nat.min a (Nat.min b c) = a ∨ Nat.min a (Nat.min b c) = b ∨
      Nat.min a (Nat.min b c) = c) ∧
    Nat.min a (Nat.min b c) ≤ a ∧ Nat.min a (Nat.min b c) ≤ b ∧
    Nat.min a (Nat.min b c) ≤ c := by
  simp only [Nat.min_def]
  split <;> split <;> omega

theorem dpMat_eq_lev {α : Type} [DecidableEq α] (a b : List α) :
    ∀ i j : Nat, i ≤ a.length → j ≤ b.length →
      dpMat a b i j = lev ((a.take i).reverse) ((b.take j).reverse) := by
  intro i j
  induction i, j using dpMat.induct a b with
  | case1 j =>
    intro _ hj
    simp [dpMat, lev_nil_left, List.length_take, Nat.min_eq_left hj]
  | case2 i =>
    intro hi _
    simp [dpMat, lev_nil_right, List.length_take, Nat.min_eq_left hi]
  | case3 i j hget ih =>
    intro hi hj
    have hi' : i < a.length := hi
    have hj' : j < b.length := hj
    obtain ⟨x, hx⟩ : ∃ x, a[i]? = some x := ⟨a[i], List.getElem?_eq_getElem hi'⟩
    obtain ⟨y, hy⟩ : ∃ y, b[j]? = some y := ⟨b[j], List.getElem?_eq_getElem hj'⟩
    have hxy : x = y := by rw [hx, hy] at hget; exact Option.some.inj hget
    have hA : (a.take (i + 1)).reverse = x :: (a.take i).reverse := by
      rw [List.take_succ, hx]; simp
    have hB : (b.take (j + 1)).reverse = y :: (b.take j).reverse := by
      rw [List.take_succ, hy]; simp
    rw [hA, hB, lev_cons_cons, if_pos hxy]
    simp only [dpMat, if_pos hget]
    exact ih (by omega) (by omega)
  | case4 i j hget ih1 ih2 ih3 =>
    intro hi hj
    have hi' : i < a.length := hi
    have hj' : j < b.length := hj
    obtain ⟨x, hx⟩ : ∃ x, a[i]? = some x := ⟨a[i], List.getElem?_eq_getElem hi'⟩
    obtain ⟨y, hy⟩ : ∃ y, b[j]? = some y := ⟨b[j], List.getElem?_eq_getElem hj'⟩
    have hxy : x ≠ y := by
      intro hc; apply hget; rw [hx, hy, hc]
    have hA : (a.take (i + 1)).reverse = x :: (a.take i).reverse := by
      rw [List.take_succ, hx]; simp
    have hB : (b.take (j + 1)).reverse = y :: (b.take j).reverse := by
      rw [List.take_succ, hy]; simp
    rw [hA, hB, lev_cons_cons, if_neg hxy]
    simp only [dpMat, if_neg hget]
    rw [ih1 (by omega) (by omega), ih2 (by omega) (by omega), ih3 (by omega) (by omega)]
    rw [hA, hB]
    have hm1 := min3_spec (lev ((a.take i).reverse) (y :: (b.take j).reverse) + 1)
      (lev (x :: (a.take i).reverse) ((b.take j).reverse) + 1)
      (lev ((a.take i).reverse) ((b.take j).reverse) + 1)
    have hm2 := min3_spec' (lev (x :: (a.take i).reverse) ((b.take j).reverse))
      (lev ((a.take i).reverse) (y :: (b.take j).reverse))
      (lev ((a.take i).reverse) ((b.take j).reverse))
    omega

/-- The rolling two-row loop returns exactly the bottom-right cell of the
full DP matrix: the space optimization is observably identical. -/
theorem min_distance_eq_dpMat {α : Type} [DecidableEq α] (a b : List α) :
    min_distance a b = dpMat a b a.length b.length := by
  rw [min_distance_eq_lev, dpMat_eq_lev a b a.length b.length le_rfl le_rfl,
    List.take_length, List.take_length, lev_reverse]

/-! ## `edit_distance` in terms of `lev` -/

theorem edit_distance_false_eq (a b : String) :
    edit_distance a b false = lev a.data b.data := by
  have hf : ¬(false = true) := by simp
  have hnil : ("" : String).data = [] := rfl
  unfold edit_distance
  rw [if_neg hf, if_neg hf, if_neg hf]
  by_cases hab : a = b
  · rw [if_pos hab]; subst hab; rw [lev_self]
  · rw [if_neg hab]
    by_cases ha : a = ""
    · rw [if_pos ha]; subst ha; rw [hnil, lev_nil_left]; rfl
    · rw [if_neg ha]
      by_cases hb : b = ""
      · rw [if_pos hb]; subst hb; rw [hnil, lev_nil_right]; rfl
      · rw [if_neg hb]; exact min_distance_eq_lev a.data b.data

theorem edit_distance_true_eq (a b : String) :
    edit_distance a b true = lev (strBytes a) (strBytes b) := by
  have ht : (true = true) := rfl
  have hnil : strBytes "" = [] := rfl
  unfold edit_distance
  rw [if_pos ht, if_pos ht, if_pos ht]
  by_cases hab : a = b
  · rw [if_pos hab]; subst hab; rw [lev_self]
  · rw [if_neg hab]
    by_cases ha : a = ""
    · rw [if_pos ha]; subst ha; rw [hnil, lev_nil_left]; rfl
    · rw [if_neg ha]
      by_cases hb : b = ""
      · rw [if_pos hb]; subst hb; rw [hnil, lev_nil_right]; rfl
      · rw [if_neg hb]; exact min_distance_eq_lev (strBytes a) (strBytes b)

/-! ## Pure-ASCII inputs: byte mode and character mode coincide -/

theorem utf8EncodeChar_ascii {c : Char} (h : c.toNat < 128) :
    utf8EncodeChar c = [c.toNat] := by
  simp [utf8EncodeChar, h]

theorem utf8Encode_ascii :
    ∀ cs : List Char, (∀ c ∈ cs, c.toNat < 128) →
      utf8Encode cs = cs.map Char.toNat := by
  intro cs
  induction cs with
  | nil => intro _; rfl
  | cons c cs ih =>
    intro h
    simp only [utf8Encode, List.map_cons]
    rw [utf8EncodeChar_ascii (h c (List.mem_cons_self c cs)),
      ih (fun d hd => h d (List.mem_cons_of_mem c hd))]
    rfl

theorem char_toNat_injective : Function.Injective Char.toNat := fun c d h =>
  Char.ofNat_toNat c ▸ Char.ofNat_toNat d ▸ congrArg Char.ofNat h

/-- Mapping both sequences through an injective function preserves the
distance (equality tests are unchanged). -/
theorem lev_map_injective {α β : Type} [DecidableEq α] [DecidableEq β]
    {f : α → β} (hf : Function.Injective f) :
    ∀ xs ys : List α, lev (xs.map f) (ys.map f) = lev xs ys := by
  intro xs ys
  induction xs, ys using lev.induct with
  | case1 ys => simp [lev_nil_left]
  | case2 x xs => simp [lev_nil_right]
  | case3 xs y ys ih =>
    simp only [List.map_cons]
    rw [lev_cons_cons, if_pos rfl, lev_cons_cons, if_pos rfl, ih]
  | case4 x xs y ys hxy ih1 ih2 ih3 =>
    have hfxy : f x ≠ f y := fun hc => hxy (hf hc)
    simp only [List.map_cons]
    rw [lev_cons_cons, if_neg hfxy, lev_cons_cons, if_neg hxy]
    simp only [List.map_cons] at ih1 ih2
    rw [ih1, ih2, ih3]

/-! ## Bounds-checked mirror of `min_distance`

`min_distanceChecked` re-runs the source's loops against explicit
vectors: every indexing read goes through `·[·]?` and every indexing
write through `setChecked`, so any out-of-bounds access aborts the whole
computation with `none` (the Rust panic branch).  The two buffers and the
final `swap` — including the reuse of the swapped-out `dp_curr` vector —
are mirrored exactly. -/

def setChecked (l : List Nat) (i v : Nat) : Option (List Nat) :=
  if i < l.length then some (l.set i v) else none

/-- The inner `for j in 1..=m` loop: fuel counts the remaining iterations,
`j` is the current index, `curr` the vector `dp_curr` being written. -/
def innerChecked {α : Type} [DecidableEq α] (a : List α) (bc : α)
    (prev : List Nat) : Nat → Nat → List Nat → Option (List Nat)
  | 0, _, curr => some curr
  | k + 1, j, curr => do
    let aj ← a[j - 1]?
    let v ←
      if aj = bc then prev[j - 1]?
      else do
        let ins ← curr[j - 1]?
        let del ← prev[j]?
        let sub ← prev[j - 1]?
        some (Nat.min (Nat.min (ins + 1) (del + 1)) (sub + 1))
    let curr' ← setChecked curr j v
    innerChecked a bc prev k (j + 1) curr'

/-- The outer loop with the final `swap(&mut dp_prev, &mut dp_curr)`. -/
def outerChecked {α : Type} [DecidableEq α] (a : List α) :
    List α → Nat → List Nat → List Nat → Option (List Nat × List Nat)
  | [], _, prev, curr => some (prev, curr)
  | bc :: bs, i, prev, curr => do
    let curr0 ← setChecked curr 0 (i + 1)
    let curr1 ← innerChecked a bc prev a.length 1 curr0
    outerChecked a bs (i + 1) curr1 prev

def min_distanceChecked {α : Type} [DecidableEq α] (a b : List α) : Option Nat := do
  let pair ← outerChecked a b 0 (List.range (a.length + 1))
    (List.replicate (a.length + 1) 0)
  pair.1[a.length]?

theorem lev_row_length {α : Type} [DecidableEq α] (bc : α) :
    ∀ (as : List α) (rest : List Nat) (diag left : Nat),
      (lev_row bc as rest diag left).length = as.length := by
  intro as
  induction as with
  | nil => intro rest diag left; rfl
  | cons x as ih => intro rest diag left; simp [lev_row, ih]

theorem innerChecked_spec {α : Type} [DecidableEq α] (bc : α) :
    ∀ as aPre : List α, ∀ prevPre : List Nat, ∀ diag : Nat,
      ∀ prevRest dInit : List Nat, ∀ left : Nat, ∀ stale : List Nat,
      prevPre.length = aPre.length →
      dInit.length = aPre.length →
      prevRest.length = as.length →
      stale.length = as.length →
      innerChecked (aPre ++ as) bc (prevPre ++ diag :: prevRest) as.length
        (aPre.length + 1) (dInit ++ left :: stale) =
        some (dInit ++ left :: lev_row bc as prevRest diag left) := by
  intro as
  induction as with
  | nil =>
    intro aPre prevPre diag prevRest dInit left stale h1 h2 h3 h4
    simp [innerChecked, lev_row]
    exact List.length_eq_zero.mp h4
  | cons x as ih =>
    intro aPre prevPre diag prevRest dInit left stale h1 h2 h3 h4
    cases prevRest with
    | nil => simp at h3
    | cons up rest =>
    cases stale with
    | nil => simp at h4
    | cons s0 stale' =>
    simp only [List.length_cons] at h3 h4
    have h3' : rest.length = as.length := by omega
    have h4' : stale'.length = as.length := by omega
    have ha : (aPre ++ x :: as)[aPre.length + 1 - 1]? = some x := by
      rw [Nat.add_sub_cancel, List.getElem?_append_right (Nat.le_refl _)]
      simp
    have hdiag : (prevPre ++ diag :: up :: rest)[aPre.length + 1 - 1]? = some diag := by
      rw [Nat.add_sub_cancel, ← h1, List.getElem?_append_right (Nat.le_refl _)]
      simp
    have hup : (prevPre ++ diag :: up :: rest)[aPre.length + 1]? = some up := by
      rw [← h1, List.getElem?_append_right (by omega)]
      rw [show prevPre.length + 1 - prevPre.length = 1 from by omega]
      simp
    have hleft : (dInit ++ left :: s0 :: stale')[aPre.length + 1 - 1]? = some left := by
      rw [Nat.add_sub_cancel, ← h2, List.getElem?_append_right (Nat.le_refl _)]
      simp
    have hset : ∀ v : Nat,
        setChecked (dInit ++ left :: s0 :: stale') (aPre.length + 1) v =
          some (dInit ++ left :: v :: stale') := by
      intro v
      unfold setChecked
      rw [if_pos (by simp [List.length_append, List.length_cons]; omega)]
      rw [← h2, List.set_append_right _ _ (by omega)]
      rw [show dInit.length + 1 - dInit.length = 1 from by omega]
      rw [List.set_cons_succ, List.set_cons_zero]
    have hrec : ∀ cur : Nat,
        innerChecked (aPre ++ x :: as) bc (prevPre ++ diag :: up :: rest) as.length
          (aPre.length + 1 + 1) (dInit ++ left :: cur :: stale') =
          some (dInit ++ left :: cur :: lev_row bc as rest up cur) := by
      intro cur
      have e1 : aPre ++ x :: as = (aPre ++ [x]) ++ as := by simp
      have e2 : prevPre ++ diag :: up :: rest = (prevPre ++ [diag]) ++ up :: rest := by
        simp
      have e3 : dInit ++ left :: cur :: stale' = (dInit ++ [left]) ++ cur :: stale' := by
        simp
      have e4 : aPre.length + 1 + 1 = (aPre ++ [x]).length + 1 := by simp
      rw [e1, e2, e3, e4]
      rw [ih (aPre ++ [x]) (prevPre ++ [diag]) up rest (dInit ++ [left]) cur stale'
        (by simp [h1]) (by simp [h2]) h3' h4']
      simp
    rw [List.length_cons]
    simp only [innerChecked]
    rw [ha]
    simp only [Option.bind_eq_bind, Option.some_bind]
    by_cases hx : x = bc
    · rw [if_pos hx, hdiag]
      simp only [Option.bind_eq_bind, Option.some_bind]
      rw [hset diag]
      simp only [Option.bind_eq_bind, Option.some_bind]
      rw [hrec diag]
      simp only [lev_row, List.headD_cons, List.tail_cons, if_pos hx]
    · rw [if_neg hx, hleft]
      simp only [Option.bind_eq_bind, Option.some_bind]
      rw [hup]
      simp only [Option.bind_eq_bind, Option.some_bind]
      rw [hdiag]
      simp only [Option.bind_eq_bind, Option.some_bind]
      rw [hset (Nat.min (Nat.min (left + 1) (up + 1)) (diag + 1))]
      simp only [Option.bind_eq_bind, Option.some_bind]
      rw [hrec (Nat.min (Nat.min (left + 1) (up + 1)) (diag + 1))]
      simp only [lev_row, List.headD_cons, List.tail_cons, if_neg hx]

theorem outerChecked_spec {α : Type} [DecidableEq α] (a : List α) :
    ∀ bs : List α, ∀ i : Nat, ∀ prev curr : List Nat,
      prev.length = a.length + 1 → curr.length = a.length + 1 →
      ∃ c : List Nat, outerChecked a bs i prev curr =
        some (outer_rows a bs i prev, c) ∧ c.length = a.length + 1 := by
  intro bs
  induction bs with
  | nil =>
    intro i prev curr h1 h2
    exact ⟨curr, rfl, h2⟩
  | cons bc bs ih =>
    intro i prev curr h1 h2
    cases prev with
    | nil => simp at h1
    | cons p0 pt =>
    cases curr with
    | nil => simp at h2
    | cons c0 ct =>
    simp only [List.length_cons] at h1 h2
    have hset0 : setChecked (c0 :: ct) 0 (i + 1) = some ((i + 1) :: ct) := by
      unfold setChecked
      rw [if_pos (by simp), List.set_cons_zero]
    have hinner := innerChecked_spec bc a [] [] p0 pt [] (i + 1) ct rfl rfl
      (by omega) (by omega)
    simp only [List.nil_append, List.length_nil, Nat.zero_add] at hinner
    simp only [outerChecked]
    rw [hset0]
    simp only [Option.bind_eq_bind, Option.some_bind]
    rw [hinner]
    simp only [Option.bind_eq_bind, Option.some_bind]
    have hlen : ((i + 1) :: lev_row bc a pt p0 (i + 1)).length = a.length + 1 := by
      simp [lev_row_length]
    obtain ⟨c, hc, hcl⟩ := ih (i + 1) ((i + 1) :: lev_row bc a pt p0 (i + 1))
      (p0 :: pt) hlen (by simp only [List.length_cons]; omega)
    rw [hc]
    refine ⟨c, ?_, hcl⟩
    simp [outer_rows]

theorem outer_rows_length {α : Type} [DecidableEq α] (a : List α) :
    ∀ bs : List α, ∀ i : Nat, ∀ prev : List Nat,
      prev.length = a.length + 1 →
      (outer_rows a bs i prev).length = a.length + 1 := by
  intro bs
  induction bs with
  | nil => intro i prev h; exact h
  | cons bc bs ih =>
    intro i prev h
    simp only [outer_rows]
    exact ih (i + 1) _ (by simp [lev_row_length])

/-- Every vector access made by the source loops is in bounds: the checked
interpreter never aborts, and returns exactly `min_distance`. -/
theorem min_distanceChecked_eq {α : Type} [DecidableEq α] (a b : List α) :
    min_distanceChecked a b = some (min_distance a b) := by
  obtain ⟨c, hc, _⟩ := outerChecked_spec a b 0 (List.range (a.length + 1))
    (List.replicate (a.length + 1) 0) (by simp) (by simp)
  unfold min_distanceChecked
  rw [hc]
  simp only [Option.bind_eq_bind, Option.some_bind]
  have hlen := outer_rows_length a b 0 (List.range (a.length + 1)) (by simp)
  have hlt : a.length < (outer_rows a b 0 (List.range (a.length + 1))).length := by
    omega
  rw [List.getElem?_eq_getElem hlt]
  unfold min_distance
  rw [List.getD_eq_getElem _ 0 hlt]

/-! ## The claims -/

/-- C1: for every pair of strings and every mode flag, `edit_distance`
returns the Levenshtein distance between the two prepared sequences — the
least number of single-element insertions, deletions or substitutions
transforming one sequence into the other, the sequences being the UTF-8
bytes when the flag is true and the Unicode scalar values when false. -/
theorem C1_edit_distance_is_min_edits (a b : String) :
    IsLeast {n | Edits n (strBytes a) (strBytes b)} (edit_distance a b true) ∧
    IsLeast {n | Edits n a.data b.data} (edit_distance a b false) := by
  constructor
  · rw [edit_distance_true_eq]; exact lev_isLeast _ _
  · rw [edit_distance_false_eq]; exact lev_isLeast _ _

/-- C2: for every pair of non-empty, non-equal prepared sequences, the
two-row rolling loop of `min_distance` returns exactly cell `[m][n]` of
the full `(m+1)×(n+1)` DP matrix (base `[0][j] = j`, `[i][0] = i`, copy
the diagonal on a match, else `1 + min` of the three predecessors): the
rolling-row substitution causes no observable difference. -/
theorem C2_min_distance_eq_dpMat {α : Type} [DecidableEq α] (a b : List α)
    (ha : a ≠ []) (hb : b ≠ []) (hne : a ≠ b) :
    min_distance a b = dpMat a b a.length b.length :=
  min_distance_eq_dpMat a b

/-- Witness for C2 at a concrete non-empty, non-equal pair. -/
theorem C2_min_distance_eq_dpMat_witness :
    ([0] ≠ ([] : List Nat)) ∧ ([1] ≠ ([] : List Nat)) ∧ ([0] ≠ [1]) ∧
      min_distance [0] [1] = dpMat [0] [1] [0].length [1].length :=
  ⟨by decide, by decide, by decide,
    C2_min_distance_eq_dpMat [0] [1] (by decide) (by decide) (by decide)⟩

/-- C3: against an empty string, the distance is the byte length (fast
mode) or the character count (slow mode) of the other string, on either
side. -/
theorem C3_empty_base (s : String) :
    edit_distance "" s true = byteLength s ∧
    edit_distance "" s false = charLength s ∧
    edit_distance s "" true = byteLength s ∧
    edit_distance s "" false = charLength s := by
  refine ⟨?_, ?_, ?_, ?_⟩
  · rw [edit_distance_true_eq, show strBytes "" = [] from rfl, lev_nil_left]; rfl
  · rw [edit_distance_false_eq, show ("" : String).data = [] from rfl,
      lev_nil_left]; rfl
  · rw [edit_distance_true_eq, show strBytes "" = [] from rfl, lev_nil_right]; rfl
  · rw [edit_distance_false_eq, show ("" : String).data = [] from rfl,
      lev_nil_right]; rfl

/-- C4: the distance from any string to itself is `0`, in both modes. -/
theorem C4_identity (t : String) (m : Bool) : edit_distance t t m = 0 := by
  unfold edit_distance
  rw [if_pos rfl]

/-- C5: the distance is symmetric in its two string arguments, for
either mode. -/
theorem C5_symmetry (a b : String) (m : Bool) :
    edit_distance a b m = edit_distance b a m := by
  cases m
  · rw [edit_distance_false_eq, edit_distance_false_eq, lev_symm]
  · rw [edit_distance_true_eq, edit_distance_true_eq, lev_symm]

/-- C6: the triangle inequality, at a fixed mode. -/
theorem C6_triangle (a b c : String) (m : Bool) :
    edit_distance a c m ≤ edit_distance a b m + edit_distance b c m := by
  cases m
  · rw [edit_distance_false_eq, edit_distance_false_eq, edit_distance_false_eq]
    exact lev_triangle _ _ _
  · rw [edit_distance_true_eq, edit_distance_true_eq, edit_distance_true_eq]
    exact lev_triangle _ _ _

/-- C7: on strings whose characters are all single-byte (ASCII, i.e.
scalar value below 128), byte mode and character mode agree. -/
theorem C7_ascii_mode_eq (a b : String)
    (ha : ∀ c ∈ a.data, c.toNat < 128) (hb : ∀ c ∈ b.data, c.toNat < 128) :
    edit_distance a b true = edit_distance a b false := by
  rw [edit_distance_true_eq, edit_distance_false_eq]
  unfold strBytes
  rw [utf8Encode_ascii a.data ha, utf8Encode_ascii b.data hb]
  exact lev_map_injective char_toNat_injective a.data b.data

/-- Witness for C7 at a concrete pure-ASCII pair. -/
theorem C7_ascii_mode_eq_witness :
    (∀ c ∈ ("ab" : String).data, c.toNat < 128) ∧
    (∀ c ∈ ("b" : String).data, c.toNat < 128) ∧
    edit_distance "ab" "b" true = edit_distance "ab" "b" false :=
  ⟨by decide, by decide, C7_ascii_mode_eq "ab" "b" (by decide) (by decide)⟩

/-- C8: the two modes disagree on a concrete multi-byte pair: deleting
the character ا from شاهنامه costs 1 in character mode but 2 in byte
mode (the character is two UTF-8 bytes). -/
theorem C8_multibyte_divergence :
    (∃ c ∈ ("شاهنامه" : String).data, 128 ≤ c.toNat) ∧
    edit_distance "شاهنامه" "شهنامه" false = 1 ∧
    edit_distance "شاهنامه" "شهنامه" true = 2 ∧
    edit_distance "شاهنامه" "شهنامه" true ≠
      edit_distance "شاهنامه" "شهنامه" false :=
  ⟨by decide, by decide, by decide, by decide⟩

/-- C9: the result is a natural number (hence non-negative) bounded by
the length of the longer prepared sequence: byte lengths in fast mode,
character counts otherwise. -/
theorem C9_bounded (a b : String) :
    edit_distance a b true ≤ max (byteLength a) (byteLength b) ∧
    edit_distance a b false ≤ max (charLength a) (charLength b) := by
  constructor
  · rw [edit_distance_true_eq]; exact lev_le_max _ _
  · rw [edit_distance_false_eq]; exact lev_le_max _ _

/-- C10: with both prepared sequences non-empty (as the early exits of
`edit_distance` guarantee), every vector access made by `min_distance` —
`dp_curr[0]`, `dp_curr[j]`, `dp_curr[j-1]`, `dp_prev[j]`, `dp_prev[j-1]`,
`a[j-1]` and the final `dp_prev[m]` — is in bounds: the checked
interpreter, which aborts with `none` on any out-of-bounds access,
succeeds and agrees with `min_distance`. -/
theorem C10_no_out_of_bounds {α : Type} [DecidableEq α] (a b : List α)
    (ha : a ≠ []) (hb : b ≠ []) :
    min_distanceChecked a b = some (min_distance a b) :=
  min_distanceChecked_eq a b

/-- Witness for C10 at a concrete non-empty pair. -/
theorem C10_no_out_of_bounds_witness :
    ([0] ≠ ([] : List Nat)) ∧ ([1] ≠ ([] : List Nat)) ∧
      min_distanceChecked [0] [1] = some (min_distance [0] [1]) :=
  ⟨by decide, by decide, C10_no_out_of_bounds [0] [1] (by decide) (by decide)⟩

end AgnosticLev
